import Mathlib

/-!
Verification of the uniform-buffer layout compiler in
`src/graphics/uniform-buffer-format.js`: the type-size table
`uniformTypeToByteSize`, the field descriptor `UniformFormat`, and the
layout compiler `UniformBufferFormat`.

The numeric values of the `UNIFORMTYPE_*` tags come from
`graphics/constants.js`, which is not among the sources; no property here
depends on those numbers, only on tag identity, so the tags are embedded
as an inductive type listing the thirteen tags registered in the table
plus the additional tags named in the source comment, which are not
registered.
-/

/-- Tags of uniform types, `UNIFORMTYPE_*` in the source. The first
thirteen constructors are those assigned a size in the byte-size table;
the remaining ones appear in the source only in the comment listing
additional types that are not handled. -/
inductive UniformType where
  | bool
  | int
  | float
  | vec2
  | vec3
  | vec4
  | ivec2
  | ivec3
  | ivec4
  | bvec2
  | bvec3
  | bvec4
  | mat4
  | mat2
  | mat3
  | texture2d
  | texturecube
  | floatarray
  | texture2dShadow
  | texturecubeShadow
  | texture3d
  | vec2array
  | vec3array
  | vec4array
  deriving DecidableEq, Repr

/-- The sparse array `uniformTypeToByteSize` of the source, which maps a
type tag to its byte size. Reading an index that was never assigned
yields `undefined` in JS, modelled as `none`. -/
def uniformTypeToByteSize : UniformType → Option Nat
  | .float => some 4
  | .vec2 => some 8
  | .vec3 => some 12
  | .vec4 => some 16
  | .int => some 4
  | .ivec2 => some 8
  | .ivec3 => some 12
  | .ivec4 => some 16
  | .bool => some 4
  | .bvec2 => some 8
  | .bvec3 => some 12
  | .bvec4 => some 16
  | .mat4 => some 64
  | _ => none

/-- Field descriptor `UniformFormat` of the source: a named uniform with
its type tag, byte size, and offset. The `offset` field is `undefined`
in JS until the enclosing `UniformBufferFormat` constructor assigns it,
modelled as an `Option` that is `none` until compilation. -/
structure UniformFormat where
  name : String
  type : UniformType
  byteSize : Nat
  offset : Option Nat := none
  deriving DecidableEq, Repr

/-- Constructor of `UniformFormat`. It resolves `byteSize` from the
table and then runs `Debug.assert(this.byteSize, ...)`.

Modelled from the spec: `Debug.assert` lives in `core/debug.js`, which
is not among the sources; per the spec a failing construction-time
assertion aborts fatally before any descriptor is produced, so the
constructor is embedded as returning `none` exactly when the asserted
value is falsy: when the table lookup yields `undefined` (tag not
registered) or the registered size is `0`. -/
def UniformFormat.create (name : String) (type : UniformType) : Option UniformFormat :=
  match uniformTypeToByteSize type with
  | none => none
  | some n => if n = 0 then none else some { name := name, type := type, byteSize := n }

/-- A JS `Map` with string keys holding field descriptors, modelled as
an association list: `Map.set` of an existing key replaces its value in
place, keeping the original insertion position; `set` of a fresh key
appends at the end. -/
def mapSet : List (String × UniformFormat) → String → UniformFormat →
    List (String × UniformFormat)
  | [], k, v => [(k, v)]
  | (k', v') :: rest, k, v =>
      if k' = k then (k, v) :: rest else (k', v') :: mapSet rest k v

/-- A JS `Map.get`: the stored value, or `undefined` (`none`) when the
key is absent. -/
def mapGet : List (String × UniformFormat) → String → Option UniformFormat
  | [], _ => none
  | (k', v') :: rest, k => if k' = k then some v' else mapGet rest k

/-- The `UniformBufferFormat` of the source: the ordered list of
(compiled) field descriptors, the total byte size, and the name lookup
map. -/
structure UniformBufferFormat where
  uniforms : List UniformFormat
  byteSize : Nat
  map : List (String × UniformFormat)
  deriving DecidableEq, Repr

/-- The loop of the `UniformBufferFormat` constructor. For each field in
declaration order it sets `uniform.offset = byteSize / 4`, advances the
byte cursor by `uniform.byteSize`, and inserts the updated descriptor
into the map under its name. JS division is exact; it is embedded as
`Nat` division, which agrees whenever the cursor is a multiple of 4 — a
property every list of table-registered fields maintains, proved below
as the word-alignment invariant. -/
def ubfLoop : List UniformFormat → Nat → List (String × UniformFormat) →
    List UniformFormat × Nat × List (String × UniformFormat)
  | [], cursor, m => ([], cursor, m)
  | u :: rest, cursor, m =>
      let u' : UniformFormat := { u with offset := some (cursor / 4) }
      let r := ubfLoop rest (cursor + u.byteSize) (mapSet m u'.name u')
      (u' :: r.1, r.2.1, r.2.2)

/-- Constructor of `UniformBufferFormat`: runs the compilation loop
starting from a zero cursor and an empty map. -/
def UniformBufferFormat.create (uniforms : List UniformFormat) : UniformBufferFormat :=
  let r := ubfLoop uniforms 0 []
  { uniforms := r.1, byteSize := r.2.1, map := r.2.2 }

/-- The last field of a list carrying a given name, if any: the
descriptor a later duplicate insertion leaves in the lookup map. -/
def lastNamed : List UniformFormat → String → Option UniformFormat
  | [], _ => none
  | u :: rest, n =>
      match lastNamed rest n with
      | some v => some v
      | none => if u.name = n then some u else none

/-- Every size registered in the table is a multiple of 4. -/
theorem uniformTypeToByteSize_dvd (t : UniformType) (n : Nat)
    (h : uniformTypeToByteSize t = some n) : 4 ∣ n := by
  cases t <;> simp [uniformTypeToByteSize] at h <;> omega

/-- The cursor returned by the loop is its starting value plus the sum
of the byte sizes of the fields it walked. -/
theorem ubfLoop_total (fs : List UniformFormat) (c : Nat)
    (m : List (String × UniformFormat)) :
    (ubfLoop fs c m).2.1 = c + (fs.map fun u => u.byteSize).sum := by
  induction fs generalizing c m with
  | nil => simp [ubfLoop]
  | cons u rest ih => simp [ubfLoop, ih]; omega

/-- The loop only rewrites each field's offset: byte sizes pass through
unchanged. -/
theorem ubfLoop_map_byteSize (fs : List UniformFormat) (c : Nat)
    (m : List (String × UniformFormat)) :
    ((ubfLoop fs c m).1.map fun u => u.byteSize) = fs.map fun u => u.byteSize := by
  induction fs generalizing c m with
  | nil => simp [ubfLoop]
  | cons u rest ih => simp [ubfLoop, ih]

/-- The loop only rewrites each field's offset: names pass through
unchanged. -/
theorem ubfLoop_map_name (fs : List UniformFormat) (c : Nat)
    (m : List (String × UniformFormat)) :
    ((ubfLoop fs c m).1.map fun u => u.name) = fs.map fun u => u.name := by
  induction fs generalizing c m with
  | nil => simp [ubfLoop]
  | cons u rest ih => simp [ubfLoop, ih]

/-- Element-wise description of the compiled list: the i-th compiled
field is the i-th input field with its offset set to the cursor reached
after the first i fields, divided by 4. -/
theorem ubfLoop_getElem (fs : List UniformFormat) (c : Nat)
    (m : List (String × UniformFormat)) (i : Nat) (h : i < fs.length) :
    (ubfLoop fs c m).1[i]? =
      some { fs[i] with
             offset := some ((c + ((fs.take i).map fun u => u.byteSize).sum) / 4) } := by
  induction fs generalizing c m i with
  | nil => simp at h
  | cons u rest ih =>
      cases i with
      | zero => simp [ubfLoop]
      | succ j =>
          have hj : j < rest.length := by
            simp only [List.length_cons] at h
            omega
          simp only [ubfLoop, List.getElem?_cons_succ, List.getElem_cons_succ,
            List.take_succ_cons, List.map_cons, List.sum_cons]
          rw [ih _ _ j hj, Nat.add_assoc]

/-- Reading a map after a `set`: the new key reads back the new value,
every other key is unchanged. -/
theorem mapGet_mapSet (m : List (String × UniformFormat)) (k : String)
    (v : UniformFormat) (k' : String) :
    mapGet (mapSet m k v) k' = if k = k' then some v else mapGet m k' := by
  induction m with
  | nil =>
      by_cases h : k = k' <;> simp [mapSet, mapGet, h]
  | cons p rest ih =>
      obtain ⟨pk, pv⟩ := p
      simp only [mapSet]
      by_cases hpk : pk = k
      · subst hpk
        simp only [if_pos rfl]
        by_cases h : pk = k' <;> simp [mapGet, h]
      · simp only [if_neg hpk, mapGet, ih]
        by_cases hp' : pk = k'
        · have hk : ¬ k = k' := fun hkk => hpk (hp'.trans hkk.symm)
          simp [hp', hk]
        · simp [hp']

/-- The lookup map built by the loop: a name that some walked field
carries reads back the last compiled field with that name; any other
name falls through to the incoming map. -/
theorem ubfLoop_mapGet (fs : List UniformFormat) (c : Nat)
    (m : List (String × UniformFormat)) (name : String) :
    mapGet (ubfLoop fs c m).2.2 name =
      match lastNamed (ubfLoop fs c m).1 name with
      | some v => some v
      | none => mapGet m name := by
  induction fs generalizing c m with
  | nil => simp [ubfLoop, lastNamed]
  | cons u rest ih =>
      simp only [ubfLoop]
      rw [ih]
      cases hr : lastNamed (ubfLoop rest (c + u.byteSize)
          (mapSet m u.name { u with offset := some (c / 4) })).1 name with
      | some v => simp [lastNamed, hr]
      | none =>
          simp only [lastNamed, hr, mapGet_mapSet]
          by_cases h : u.name = name <;> simp [h]

/-- Soundness of `lastNamed`: whatever it finds carries the requested
name and belongs to the list. -/
theorem lastNamed_sound (l : List UniformFormat) (name : String)
    (u : UniformFormat) (h : lastNamed l name = some u) :
    u.name = name ∧ u ∈ l := by
  induction l with
  | nil => simp [lastNamed] at h
  | cons v rest ih =>
      simp only [lastNamed] at h
      cases hr : lastNamed rest name with
      | some w =>
          rw [hr] at h
          obtain ⟨hn, hm⟩ := ih (hr.trans h)
          exact ⟨hn, List.mem_cons_of_mem _ hm⟩
      | none =>
          rw [hr] at h
          by_cases hv : v.name = name
          · simp [hv] at h
            exact ⟨h ▸ hv, h ▸ List.mem_cons_self _ _⟩
          · simp [hv] at h
/-- Completeness of `lastNamed`: a name carried by some field of the
list is found. -/
theorem lastNamed_of_mem (l : List UniformFormat) (name : String)
    (h : name ∈ l.map fun u => u.name) :
    ∃ u, lastNamed l name = some u := by
  induction l with
  | nil => simp at h
  | cons v rest ih =>
      simp only [lastNamed]
      cases hr : lastNamed rest name with
      | some w => exact ⟨w, rfl⟩
      | none =>
          simp only [List.map_cons, List.mem_cons] at h
          rcases h with h | h
          · exact ⟨v, by simp [h.symm]⟩
          · obtain ⟨w, hw⟩ := ih h
            rw [hw] at hr
            exact absurd hr (by simp)

/-- A name carried by no field of a list is not found by `lastNamed`. -/
theorem lastNamed_of_not_mem (l : List UniformFormat) (name : String)
    (h : ¬ name ∈ l.map fun u => u.name) :
    lastNamed l name = none := by
  induction l with
  | nil => simp [lastNamed]
  | cons v rest ih =>
      simp only [List.map_cons, List.mem_cons, not_or] at h
      have hv : ¬ v.name = name := fun hh => h.1 hh.symm
      simp [lastNamed, ih h.2, hv]

/-- Length is preserved by the compilation loop. -/
theorem ubfLoop_length (fs : List UniformFormat) (c : Nat)
    (m : List (String × UniformFormat)) :
    (ubfLoop fs c m).1.length = fs.length := by
  simpa using congrArg List.length (ubfLoop_map_byteSize fs c m)

/-- C1: for every list of field descriptors whose types are registered
in the type-size table, after constructing a `UniformBufferFormat`, the
i-th field's offset times 4 equals the sum of the byte sizes of fields 0
through i-1: fields are packed sequentially with no gaps and no
alignment padding. -/
theorem uniform_offsets_sequential (fs : List UniformFormat)
    (hreg : ∀ u ∈ fs, uniformTypeToByteSize u.type = some u.byteSize)
    (i : Nat) (u : UniformFormat)
    (hu : (UniformBufferFormat.create fs).uniforms[i]? = some u) :
    ∃ k, u.offset = some k ∧
      k * 4 = (((UniformBufferFormat.create fs).uniforms.take i).map
        fun v => v.byteSize).sum := by
  have hcreate : (UniformBufferFormat.create fs).uniforms = (ubfLoop fs 0 []).1 := rfl
  have hlen : i < fs.length := by
    by_contra hn
    push_neg at hn
    rw [hcreate, List.getElem?_eq_none (by rw [ubfLoop_length]; exact hn)] at hu
    exact Option.noConfusion hu
  have hget := ubfLoop_getElem fs 0 [] i hlen
  rw [hcreate, hget] at hu
  have hu' := Option.some.inj hu
  have hmaps : (((ubfLoop fs 0 []).1.take i).map fun v => v.byteSize)
      = ((fs.take i).map fun v => v.byteSize) := by
    rw [List.map_take, List.map_take, ubfLoop_map_byteSize]
  have hdvd : 4 ∣ ((fs.take i).map fun v => v.byteSize).sum := by
    refine List.dvd_sum ?_
    intro x hx
    obtain ⟨v, hv, hvx⟩ := List.mem_map.mp hx
    exact hvx ▸ uniformTypeToByteSize_dvd v.type v.byteSize
      (hreg v (List.take_subset i fs hv))
  refine ⟨((fs.take i).map fun v => v.byteSize).sum / 4, ?_, ?_⟩
  · rw [← hu']
    simp
  · rw [hcreate, hmaps, Nat.div_mul_cancel hdvd]

/-- Witness for C1 at the list [("a", float), ("b", vec2)], index 1. -/
theorem uniform_offsets_sequential_witness :
    ∃ k, ({ name := "b", type := UniformType.vec2, byteSize := 8,
            offset := some 1 } : UniformFormat).offset = some k ∧
      k * 4 = (((UniformBufferFormat.create
        [{ name := "a", type := .float, byteSize := 4 },
         { name := "b", type := .vec2, byteSize := 8 }]).uniforms.take 1).map
        fun v => v.byteSize).sum :=
  uniform_offsets_sequential
    [{ name := "a", type := .float, byteSize := 4 },
     { name := "b", type := .vec2, byteSize := 8 }]
    (by decide) 1 _ (by decide)

/-- C2: the byteSize of the constructed `UniformBufferFormat` is exactly
the sum of the byte sizes of all fields, independent of names and of
duplicate names. -/
theorem total_byteSize_is_sum (fs : List UniformFormat)
    (_hreg : ∀ u ∈ fs, uniformTypeToByteSize u.type = some u.byteSize) :
    (UniformBufferFormat.create fs).byteSize = (fs.map fun u => u.byteSize).sum := by
  simpa using ubfLoop_total fs 0 []

/-- Witness for C2 at a list with a duplicated name. -/
theorem total_byteSize_is_sum_witness :
    (UniformBufferFormat.create
      [{ name := "x", type := .float, byteSize := 4 },
       { name := "x", type := .vec3, byteSize := 12 }]).byteSize
      = ([{ name := "x", type := .float, byteSize := 4 },
          { name := "x", type := .vec3, byteSize := 12 }].map
          fun u : UniformFormat => u.byteSize).sum :=
  total_byteSize_is_sum
    [{ name := "x", type := .float, byteSize := 4 },
     { name := "x", type := .vec3, byteSize := 12 }]
    (by decide)

/-- C3: for every name and every type tag not registered in the
type-size table, constructing a `UniformFormat` fails at construction
time, before any `UniformBufferFormat` containing it can be produced; no
default byte size is assumed. -/
theorem unregistered_type_aborts (name : String) (t : UniformType)
    (h : uniformTypeToByteSize t = none) :
    UniformFormat.create name t = none := by
  simp [UniformFormat.create, h]

/-- Witness for C3 at the mat3 tag, which the table does not register. -/
theorem unregistered_type_aborts_witness :
    uniformTypeToByteSize UniformType.mat3 = none ∧
    UniformFormat.create "m" UniformType.mat3 = none :=
  ⟨by decide, unregistered_type_aborts "m" UniformType.mat3 (by decide)⟩

/-- C4: the type-size table assigns exactly the documented canonical
byte sizes: scalars 4; 2-component vectors 8; 3-component vectors 12;
4-component vectors 16; the 4x4 float matrix 64. -/
theorem type_size_table_canonical :
    uniformTypeToByteSize .bool = some 4 ∧
    uniformTypeToByteSize .int = some 4 ∧
    uniformTypeToByteSize .float = some 4 ∧
    uniformTypeToByteSize .vec2 = some 8 ∧
    uniformTypeToByteSize .ivec2 = some 8 ∧
    uniformTypeToByteSize .bvec2 = some 8 ∧
    uniformTypeToByteSize .vec3 = some 12 ∧
    uniformTypeToByteSize .ivec3 = some 12 ∧
    uniformTypeToByteSize .bvec3 = some 12 ∧
    uniformTypeToByteSize .vec4 = some 16 ∧
    uniformTypeToByteSize .ivec4 = some 16 ∧
    uniformTypeToByteSize .bvec4 = some 16 ∧
    uniformTypeToByteSize .mat4 = some 64 := by decide

/-- C5: looking up a name that occurs among the fields of a compiled
`UniformBufferFormat` returns a field descriptor carrying that name (one
of the compiled descriptors, with its assigned offset and byte size);
looking up a name that occurs in no field returns the explicit not-found
signal. -/
theorem lookup_present_or_miss (fs : List UniformFormat) (name : String) :
    (name ∈ fs.map (fun u => u.name) →
      ∃ u, mapGet (UniformBufferFormat.create fs).map name = some u ∧
        u.name = name ∧ u ∈ (UniformBufferFormat.create fs).uniforms) ∧
    (name ∉ fs.map (fun u => u.name) →
      mapGet (UniformBufferFormat.create fs).map name = none) := by
  have hmap : mapGet (UniformBufferFormat.create fs).map name =
      match lastNamed (ubfLoop fs 0 []).1 name with
      | some v => some v
      | none => mapGet [] name := ubfLoop_mapGet fs 0 [] name
  have hnames : ((ubfLoop fs 0 []).1.map fun u => u.name)
      = fs.map fun u => u.name := ubfLoop_map_name fs 0 []
  constructor
  · intro hmem
    rw [← hnames] at hmem
    obtain ⟨u, hu⟩ := lastNamed_of_mem _ name hmem
    obtain ⟨hn, hm⟩ := lastNamed_sound _ name u hu
    exact ⟨u, by rw [hmap, hu], hn, hm⟩
  · intro hmem
    rw [← hnames] at hmem
    rw [hmap, lastNamed_of_not_mem _ name hmem]
    rfl

/-- Witness for C5: a present name is found with matching name, an
absent name misses. -/
theorem lookup_present_or_miss_witness :
    (∃ u, mapGet (UniformBufferFormat.create
        [{ name := "a", type := .float, byteSize := 4 }]).map "a" = some u ∧
      u.name = "a" ∧
      u ∈ (UniformBufferFormat.create
        [{ name := "a", type := .float, byteSize := 4 }]).uniforms) ∧
    mapGet (UniformBufferFormat.create
      [{ name := "a", type := .float, byteSize := 4 }]).map "zzz" = none :=
  ⟨(lookup_present_or_miss
      [{ name := "a", type := .float, byteSize := 4 }] "a").1 (by decide),
   (lookup_present_or_miss
      [{ name := "a", type := .float, byteSize := 4 }] "zzz").2 (by decide)⟩

/-- C6: with duplicate names every field still occupies its own space in
the offset sequence and contributes to the total, but the lookup map
retains only the last field with a given name; in particular for
[("x", float), ("x", vec2)] the total byte size is 12 and lookup of "x"
returns the vec2 descriptor with offset 1. -/
theorem duplicate_names_last_wins :
    (∀ (fs : List UniformFormat) (name : String),
      mapGet (UniformBufferFormat.create fs).map name =
        lastNamed (UniformBufferFormat.create fs).uniforms name) ∧
    (∀ u1 u2 : UniformFormat,
      UniformFormat.create "x" .float = some u1 →
      UniformFormat.create "x" .vec2 = some u2 →
      (UniformBufferFormat.create [u1, u2]).byteSize = 12 ∧
      mapGet (UniformBufferFormat.create [u1, u2]).map "x" =
        some { name := "x", type := .vec2, byteSize := 8, offset := some 1 }) := by
  constructor
  · intro fs name
    show mapGet (ubfLoop fs 0 []).2.2 name = lastNamed (ubfLoop fs 0 []).1 name
    rw [ubfLoop_mapGet fs 0 [] name]
    cases hl : lastNamed (ubfLoop fs 0 []).1 name <;> simp [mapGet]
  · intro u1 u2 h1 h2
    have e1 : some ({ name := "x", type := .float, byteSize := 4 } : UniformFormat)
        = some u1 := h1
    have e2 : some ({ name := "x", type := .vec2, byteSize := 8 } : UniformFormat)
        = some u2 := h2
    obtain rfl := Option.some.inj e1
    obtain rfl := Option.some.inj e2
    exact ⟨by decide, by decide⟩

/-- Witness for C6 at the concrete duplicate-name pair. -/
theorem duplicate_names_last_wins_witness :
    (UniformBufferFormat.create
      [{ name := "x", type := .float, byteSize := 4 },
       { name := "x", type := .vec2, byteSize := 8 }]).byteSize = 12 ∧
    mapGet (UniformBufferFormat.create
      [{ name := "x", type := .float, byteSize := 4 },
       { name := "x", type := .vec2, byteSize := 8 }]).map "x" =
      some { name := "x", type := .vec2, byteSize := 8, offset := some 1 } :=
  duplicate_names_last_wins.2
    { name := "x", type := .float, byteSize := 4 }
    { name := "x", type := .vec2, byteSize := 8 } rfl rfl

/-- Offsets, byte sizes and the total cursor computed by the loop depend
only on the byte sizes of the input fields, not on their names, types or
incoming offsets, nor on the incoming map. -/
theorem ubfLoop_congr (fs1 fs2 : List UniformFormat) (c : Nat)
    (m1 m2 : List (String × UniformFormat))
    (h : (fs1.map fun u => u.byteSize) = fs2.map fun u => u.byteSize) :
    ((ubfLoop fs1 c m1).1.map fun u => (u.offset, u.byteSize))
      = ((ubfLoop fs2 c m2).1.map fun u => (u.offset, u.byteSize)) ∧
    (ubfLoop fs1 c m1).2.1 = (ubfLoop fs2 c m2).2.1 := by
  induction fs1 generalizing fs2 c m1 m2 with
  | nil =>
      cases fs2 with
      | nil => exact ⟨rfl, rfl⟩
      | cons v rest2 => simp at h
  | cons u rest ih =>
      cases fs2 with
      | nil => simp at h
      | cons v rest2 =>
          simp only [List.map_cons, List.cons.injEq] at h
          obtain ⟨hb, ht⟩ := h
          constructor
          · simp only [ubfLoop, List.map_cons]
            rw [← hb, (ih rest2 (c + u.byteSize) _ _ ht).1]
          · simp only [ubfLoop]
            rw [← hb]
            exact (ih rest2 (c + u.byteSize) _ _ ht).2

/-- C7: compilation is deterministic: two runs of the
`UniformBufferFormat` constructor on equal inputs (equal name, type and
byte size at every position, whatever offsets the descriptors carried
before) yield identical offsets and byte sizes for every field and an
identical total byte size. -/
theorem compile_deterministic (fs1 fs2 : List UniformFormat)
    (h : (fs1.map fun u => (u.name, u.type, u.byteSize))
      = fs2.map fun u => (u.name, u.type, u.byteSize)) :
    ((UniformBufferFormat.create fs1).uniforms.map fun u => (u.offset, u.byteSize))
      = ((UniformBufferFormat.create fs2).uniforms.map fun u => (u.offset, u.byteSize)) ∧
    (UniformBufferFormat.create fs1).byteSize
      = (UniformBufferFormat.create fs2).byteSize := by
  have hb : (fs1.map fun u => u.byteSize) = fs2.map fun u => u.byteSize := by
    have h2 := congrArg (List.map fun p : String × UniformType × Nat => p.2.2) h
    simpa [List.map_map, Function.comp] using h2
  exact ubfLoop_congr fs1 fs2 0 [] [] hb

/-- Witness for C7: two descriptor lists equal up to their incoming
offsets compile to the same layout. -/
theorem compile_deterministic_witness :
    ((UniformBufferFormat.create
        [{ name := "a", type := .float, byteSize := 4 }]).uniforms.map
        fun u => (u.offset, u.byteSize))
      = ((UniformBufferFormat.create
        [{ name := "a", type := .float, byteSize := 4,
           offset := some 99 }]).uniforms.map
        fun u => (u.offset, u.byteSize)) ∧
    (UniformBufferFormat.create
        [{ name := "a", type := .float, byteSize := 4 }]).byteSize
      = (UniformBufferFormat.create
        [{ name := "a", type := .float, byteSize := 4,
           offset := some 99 }]).byteSize :=
  compile_deterministic
    [{ name := "a", type := .float, byteSize := 4 }]
    [{ name := "a", type := .float, byteSize := 4, offset := some 99 }]
    (by decide)

/-- C8: the field list [("a", vec3), ("b", float), ("c", vec4)] compiles
to offsets 0, 3 and 4 (bytes 0, 12 and 16) with total byte size 32: no
16-byte alignment padding is inserted after the vec3 field. -/
theorem scenario_vec3_float_vec4 (a b c : UniformFormat)
    (ha : UniformFormat.create "a" .vec3 = some a)
    (hb : UniformFormat.create "b" .float = some b)
    (hc : UniformFormat.create "c" .vec4 = some c) :
    ((UniformBufferFormat.create [a, b, c]).uniforms.map fun u => u.offset)
      = [some 0, some 3, some 4] ∧
    (UniformBufferFormat.create [a, b, c]).byteSize = 32 := by
  have ea : some ({ name := "a", type := .vec3, byteSize := 12 } : UniformFormat)
      = some a := ha
  have eb : some ({ name := "b", type := .float, byteSize := 4 } : UniformFormat)
      = some b := hb
  have ec : some ({ name := "c", type := .vec4, byteSize := 16 } : UniformFormat)
      = some c := hc
  obtain rfl := Option.some.inj ea
  obtain rfl := Option.some.inj eb
  obtain rfl := Option.some.inj ec
  exact ⟨by decide, by decide⟩

/-- Witness for C8 at the three concrete descriptors. -/
theorem scenario_vec3_float_vec4_witness :
    ((UniformBufferFormat.create
      [{ name := "a", type := .vec3, byteSize := 12 },
       { name := "b", type := .float, byteSize := 4 },
       { name := "c", type := .vec4, byteSize := 16 }]).uniforms.map
      fun u => u.offset) = [some 0, some 3, some 4] ∧
    (UniformBufferFormat.create
      [{ name := "a", type := .vec3, byteSize := 12 },
       { name := "b", type := .float, byteSize := 4 },
       { name := "c", type := .vec4, byteSize := 16 }]).byteSize = 32 :=
  scenario_vec3_float_vec4 _ _ _ rfl rfl rfl

/-- C9: the empty field list compiles to total byte size 0 and an empty
lookup map, so lookup of any name whatsoever misses. -/
theorem empty_list_format (name : String) :
    (UniformBufferFormat.create []).byteSize = 0 ∧
    (UniformBufferFormat.create []).map = [] ∧
    mapGet (UniformBufferFormat.create []).map name = none :=
  ⟨rfl, rfl, rfl⟩

/-- C10: every byte size registered in the table is a multiple of 4, so
for lists of registered-type fields the running byte cursor is a
multiple of 4 at every step and each assigned word offset is exact:
offset times 4 recovers the byte position without truncation. -/
theorem word_alignment_invariant :
    (∀ (t : UniformType) (n : Nat), uniformTypeToByteSize t = some n → 4 ∣ n) ∧
    (∀ fs : List UniformFormat,
      (∀ u ∈ fs, uniformTypeToByteSize u.type = some u.byteSize) →
      ∀ i : Nat,
        4 ∣ ((fs.take i).map fun u => u.byteSize).sum ∧
        ∀ u, (UniformBufferFormat.create fs).uniforms[i]? = some u →
          u.offset = some ((((fs.take i).map fun v => v.byteSize).sum) / 4) ∧
          ((((fs.take i).map fun v => v.byteSize).sum) / 4) * 4
            = ((fs.take i).map fun v => v.byteSize).sum) := by
  constructor
  · exact uniformTypeToByteSize_dvd
  · intro fs hreg i
    have hdvd : 4 ∣ ((fs.take i).map fun u => u.byteSize).sum := by
      refine List.dvd_sum ?_
      intro x hx
      obtain ⟨v, hv, hvx⟩ := List.mem_map.mp hx
      exact hvx ▸ uniformTypeToByteSize_dvd v.type v.byteSize
        (hreg v (List.take_subset i fs hv))
    refine ⟨hdvd, ?_⟩
    intro u hu
    have hcreate : (UniformBufferFormat.create fs).uniforms = (ubfLoop fs 0 []).1 := rfl
    have hlen : i < fs.length := by
      by_contra hn
      push_neg at hn
      rw [hcreate, List.getElem?_eq_none (by rw [ubfLoop_length]; exact hn)] at hu
      exact Option.noConfusion hu
    rw [hcreate, ubfLoop_getElem fs 0 [] i hlen] at hu
    have hu' := Option.some.inj hu
    refine ⟨?_, Nat.div_mul_cancel hdvd⟩
    rw [← hu']
    simp

/-- Witness for C10 at the list [("a", vec3), ("b", float)], index 1:
the prefix of one vec3 occupies 12 bytes, a multiple of 4, and the
second field's offset 3 satisfies 3 * 4 = 12. -/
theorem word_alignment_invariant_witness :
    (4 ∣ (([{ name := "a", type := UniformType.vec3, byteSize := 12 },
            { name := "b", type := UniformType.float, byteSize := 4 }].take 1).map
            fun u : UniformFormat => u.byteSize).sum) ∧
    ({ name := "b", type := UniformType.float, byteSize := 4,
       offset := some 3 } : UniformFormat).offset
      = some (((([{ name := "a", type := UniformType.vec3, byteSize := 12 },
                  { name := "b", type := UniformType.float, byteSize := 4 }].take 1).map
                  fun v : UniformFormat => v.byteSize).sum) / 4) ∧
    (((([{ name := "a", type := UniformType.vec3, byteSize := 12 },
         { name := "b", type := UniformType.float, byteSize := 4 }].take 1).map
         fun v : UniformFormat => v.byteSize).sum) / 4) * 4
      = (([{ name := "a", type := UniformType.vec3, byteSize := 12 },
           { name := "b", type := UniformType.float, byteSize := 4 }].take 1).map
           fun v : UniformFormat => v.byteSize).sum :=
  ⟨(word_alignment_invariant.2
      [{ name := "a", type := UniformType.vec3, byteSize := 12 },
       { name := "b", type := UniformType.float, byteSize := 4 }] (by decide) 1).1,
   (word_alignment_invariant.2
      [{ name := "a", type := UniformType.vec3, byteSize := 12 },
       { name := "b", type := UniformType.float, byteSize := 4 }] (by decide) 1).2
      _ (by decide)⟩
